import Mathlib

/-!
# Verification of the skill acquisition and installation engine

Shallow embedding, in Lean 4, of the core logic of the `sun` CLI
(skill source resolution, GitHub URL normalization, frontmatter parsing,
skill discovery, install-path resolution, install/remove orchestration and
content hashing), together with theorems settling the specification claims.

Strings are modelled as Lean `String` (a wrapper around `List Char`); file
contents are modelled as strings of the bytes' characters (exact for the
ASCII inputs used throughout).  Filesystem effects are modelled by explicit
state passing: a directory tree is a `List Entry`, and the set of installed
skill directories is an association `Store` threaded through the install
functions.  External collaborators (registry client, on-disk existence
checks, the fetched content of a remote repository, the cryptographic
digest) are parameters of the corresponding functions.
-/

namespace Sun

/-! ## JS string primitives used by the source -/

/-- JavaScript `\s` (whitespace class), restricted to the ASCII range plus
NBSP; exact for the ASCII manifests considered here. -/
def jsIsSpace (c : Char) : Bool :=
  c = ' ' || c = '\t' || c = '\n' || c = '\r' ||
  c = '\x0b' || c = '\x0c' || c = ' '

/-- JavaScript `String.prototype.trim` on a character list. -/
def jsTrim (s : List Char) : List Char :=
  ((s.dropWhile jsIsSpace).reverse.dropWhile jsIsSpace).reverse

/-- Split a character list on a separator character (JS `split`). -/
def splitOnChar (sep : Char) (s : List Char) : List (List Char) :=
  match s with
  | [] => [[]]
  | c :: cs =>
    let rest := splitOnChar sep cs
    if c = sep then [] :: rest
    else match rest with
      | r :: rs => (c :: r) :: rs
      | [] => [[c]]

/-- Does `pat` occur as a contiguous run somewhere in `s`
(JS `String.prototype.includes`)? -/
def containsSub (s pat : List Char) : Bool :=
  match s with
  | [] => pat.isEmpty
  | _ :: cs => pat.isPrefixOf s || containsSub cs pat

/-- The part of `s` strictly before the first occurrence of `pat`,
or `none` when `pat` does not occur in `s`. -/
def takeUntilSub (pat : List Char) : List Char → Option (List Char)
  | [] => if pat.isEmpty then some [] else none
  | c :: cs =>
    if pat.isPrefixOf (c :: cs) then some []
    else (takeUntilSub pat cs).map (c :: ·)

/-- JS `indexOf` for a single character. -/
def indexOfChar (c : Char) (s : List Char) : Option Nat :=
  s.indexOf? c

/-- JS `String.prototype.startsWith` (kernel-reducible, unlike the
byte-position based `String.startsWith`). -/
def strStartsWith (s pat : String) : Bool :=
  pat.toList.isPrefixOf s.toList

/-! ## SkillMetadata and the frontmatter parser (`skill-info.ts`) -/

/-- Parsed `SKILL.md` frontmatter (`SkillMetadata` in `types/index.ts`). -/
structure SkillMetadata where
  name : String
  description : String
  license : Option String := none
  compatibility : Option String := none
  metadata : Option (List (String × String)) := none
  allowedTools : Option String := none
  deriving Repr, DecidableEq

/-- JS object property update: overwrite the first binding of `k` in place,
else append the new binding. -/
def objSet (m : List (String × String)) (k v : String) : List (String × String) :=
  match m with
  | [] => [(k, v)]
  | (k', v') :: rest =>
    if k' = k then (k', v) :: rest else (k', v') :: objSet rest k v

/-- State carried across the frontmatter line loop. -/
structure FmState where
  name : List Char := []
  description : List Char := []
  license : Option (List Char) := none
  compatibility : Option (List Char) := none
  allowedTools : Option (List Char) := none
  metadata : List (String × String) := []
  inMetadata : Bool := false

/-- Strip one matching layer of surrounding single or double quotes
(`value.slice(1, -1)` when both ends are the same quote). -/
def stripQuotes (v : List Char) : List Char :=
  if (v.head? = some '"' && v.getLast? = some '"') ||
     (v.head? = some '\'' && v.getLast? = some '\'') then
    (v.drop 1).dropLast
  else v

/-- One iteration of the `for (const line of lines)` loop of
`parseFrontmatter`. -/
def fmStep (st : FmState) (line : List Char) : FmState :=
  -- `/^metadata:\s*$/`
  if ("metadata:".toList.isPrefixOf line) &&
     ((line.drop 9).all jsIsSpace) then
    { st with inMetadata := true }
  else
    -- leaving the metadata block on a line starting with `\S`
    let st :=
      if st.inMetadata && (match line.head? with
        | some c => !jsIsSpace c
        | none => false) then
        { st with inMetadata := false }
      else st
    match indexOfChar ':' line with
    | none => st
    | some colonIndex =>
      if colonIndex = 0 then st
      else
        let key := jsTrim (line.take colonIndex)
        let value := stripQuotes (jsTrim (line.drop (colonIndex + 1)))
        if st.inMetadata then
          { st with metadata := objSet st.metadata (String.mk key) (String.mk value) }
        else
          if key = "name".toList then { st with name := value }
          else if key = "description".toList then { st with description := value }
          else if key = "license".toList then { st with license := some value }
          else if key = "compatibility".toList then { st with compatibility := some value }
          else if key = "allowed-tools".toList then { st with allowedTools := some value }
          else st

/-- The frontmatter block extracted by the source's anchored lazy regex
(open delimiter `---` newline, lazy body, newline `---`): the input must
start with a line that is exactly `---`, and the block is the text up to the
first later line starting with `---` (the first occurrence of `"\n---"` at
or after index 4). -/
def frontmatterBlock (content : List Char) : Option (List Char) :=
  if "---\n".toList.isPrefixOf content then
    takeUntilSub "\n---".toList (content.drop 4)
  else none

/-- `parseFrontmatter` from `skill-info.ts`: parse the YAML-like frontmatter
of a `SKILL.md` file; `none` when the delimiters are absent or when the
required `name`/`description` fields are missing or empty. -/
def parseFrontmatter (content : String) : Option SkillMetadata :=
  match frontmatterBlock content.toList with
  | none => none
  | some block =>
    let lines := splitOnChar '\n' block
    let st := lines.foldl fmStep {}
    if st.name.isEmpty || st.description.isEmpty then none
    else
      some {
        name := String.mk st.name
        description := String.mk st.description
        license := st.license.map String.mk
        compatibility := st.compatibility.map String.mk
        metadata := if st.metadata.isEmpty then none else some st.metadata
        allowedTools := st.allowedTools.map String.mk }

example :
    parseFrontmatter "---\nname: widget\ndescription: a widget\n---\nbody" =
      some { name := "widget", description := "a widget" } := by decide

example : parseFrontmatter "---\nname: widget\n---\nbody" = none := by decide

example :
    parseFrontmatter "---\nname: \"q\"\ndescription: 'd'\n---" =
      some { name := "q", description := "d" } := by decide

example :
    parseFrontmatter
      "---\nname: n\nmetadata:\n  author: me\ndescription: d\n---" =
      some { name := "n", description := "d",
             metadata := some [("author", "me")] } := by decide

/-! ## File trees and skill discovery (`skill-info.ts`) -/

/-- One entry of a directory: a file with its content, or a subdirectory
with its own entries. -/
inductive Entry where
  | file (name : String) (content : String)
  | dir (name : String) (entries : List Entry)

/-- The on-disk name of an entry. -/
def Entry.name : Entry → String
  | .file n _ => n
  | .dir n _ => n

/-- `path.join` for one extra segment. -/
def joinPath (p n : String) : String := p ++ "/" ++ n

/-- Read the content of a file named `fname` among the entries of a
directory (`fs.readFile(path.join(dir, fname))`): `none` when no entry of
that name exists or the entry is itself a directory (the read throws and
the caller catches). -/
def readFileInDir (es : List Entry) (fname : String) : Option String :=
  match es.find? (fun e => e.name == fname) with
  | some (.file _ c) => some c
  | _ => none

/-- `readSkillMetadata` from `skill-info.ts`: parse `SKILL.md` in a skill
directory, `none` when it is absent or invalid. -/
def readSkillMetadata (es : List Entry) : Option SkillMetadata :=
  match readFileInDir es "SKILL.md" with
  | some content => parseFrontmatter content
  | none => none

/-- `isValidSkillDirectory` from `skill-info.ts`. -/
def isValidSkillDirectory (es : List Entry) : Bool :=
  (readSkillMetadata es).isSome

mutual

/-- The body of `searchRecursively` in `findSkillDirectories`: iterate over
the entries `l` of the directory at path `p` whose full entry list is
`here`; a file named `SKILL.md` records `p` when the directory is a valid
skill, and subdirectories are recursed into unless their name starts with
`.git`. -/
def walkEntries (p : String) (here : List Entry) (l : List Entry) : List String :=
  match l with
  | [] => []
  | .file n _ :: rest =>
      (if n == "SKILL.md" && isValidSkillDirectory here then [p] else []) ++
        walkEntries p here rest
  | .dir n sub :: rest =>
      (if !strStartsWith n ".git" then findSkillDirectories (joinPath p n) sub else []) ++
        walkEntries p here rest
termination_by sizeOf l
decreasing_by all_goals (simp_wf <;> omega)

/-- `findSkillDirectories` from `skill-info.ts`: all directories below (and
including) `p` that contain a valid `SKILL.md`, in traversal order. -/
def findSkillDirectories (p : String) (es : List Entry) : List String :=
  walkEntries p es es
termination_by sizeOf es + 1
decreasing_by simp_wf

end

/-- Does the entry list contain a file named `SKILL.md`
(the walk's per-entry trigger)? -/
def hasSkillMdFile (l : List Entry) : Bool :=
  l.any fun e =>
    match e with
    | .file n _ => n == "SKILL.md"
    | .dir _ _ => false

example :
    findSkillDirectories "/r"
      [Entry.dir "a" [Entry.file "SKILL.md" "---\nname: a\ndescription: d\n---"],
       Entry.dir ".git" [Entry.dir "b" [Entry.file "SKILL.md" "---\nname: b\ndescription: d\n---"]],
       Entry.file "SKILL.md" "---\nname: r\ndescription: d\n---"] =
      ["/r/a", "/r"] := by
  have h1 : isValidSkillDirectory
      [Entry.file "SKILL.md" "---\nname: a\ndescription: d\n---"] = true := by decide
  have h2 : isValidSkillDirectory
      [Entry.dir "a" [Entry.file "SKILL.md" "---\nname: a\ndescription: d\n---"],
       Entry.dir ".git" [Entry.dir "b" [Entry.file "SKILL.md" "---\nname: b\ndescription: d\n---"]],
       Entry.file "SKILL.md" "---\nname: r\ndescription: d\n---"] = true := by decide
  have hg1 : strStartsWith "a" ".git" = false := by decide
  have hg2 : strStartsWith ".git" ".git" = true := by decide
  simp [findSkillDirectories, walkEntries, h1, h2, hg1, hg2, joinPath]

/-- A directory (`q`, `fs`) is reachable from (`p`, `es`) through the
traversal of `findSkillDirectories`: a chain of subdirectories none of whose
names starts with `.git`. -/
inductive Reaches : String → List Entry → String → List Entry → Prop where
  | here (p : String) (es : List Entry) : Reaches p es p es
  | there {p q : String} {es sub fs : List Entry} (n : String)
      (hmem : Entry.dir n sub ∈ es) (hgit : strStartsWith n ".git" = false)
      (h : Reaches (joinPath p n) sub q fs) : Reaches p es q fs

lemma hasSkillMdFile_of_isValid {es : List Entry}
    (h : isValidSkillDirectory es = true) :
    hasSkillMdFile es = true := by
  unfold isValidSkillDirectory readSkillMetadata readFileInDir at h
  cases hfind : es.find? (fun e => e.name == "SKILL.md") with
  | none => simp [hfind] at h
  | some e =>
    cases e with
    | file n c =>
      have hmem := List.mem_of_find?_eq_some hfind
      have hp := List.find?_some hfind
      simp only [Entry.name, beq_iff_eq] at hp
      subst hp
      simp only [hasSkillMdFile, List.any_eq_true]
      exact ⟨_, hmem, by simp⟩
    | dir n sub => simp [hfind] at h

lemma hasSkillMdFile_cons_file {n c : String} {l : List Entry} :
    hasSkillMdFile (Entry.file n c :: l) = ((n == "SKILL.md") || hasSkillMdFile l) := by
  simp [hasSkillMdFile]

lemma hasSkillMdFile_cons_dir {n : String} {es l : List Entry} :
    hasSkillMdFile (Entry.dir n es :: l) = hasSkillMdFile l := by
  simp [hasSkillMdFile]

lemma mem_walkEntries {p : String} {here : List Entry} {l : List Entry}
    {q : String} :
    q ∈ walkEntries p here l ↔
      (hasSkillMdFile l = true ∧ isValidSkillDirectory here = true ∧ q = p) ∨
      (∃ n sub, Entry.dir n sub ∈ l ∧ strStartsWith n ".git" = false ∧
        q ∈ findSkillDirectories (joinPath p n) sub) := by
  induction l with
  | nil => simp [walkEntries, hasSkillMdFile]
  | cons e rest ih =>
    cases e with
    | file n c =>
      rw [walkEntries]
      cases hn : (n == "SKILL.md") <;>
        cases hv : isValidSkillDirectory here <;>
          (simp [hn, hv, ih, hasSkillMdFile_cons_file]; try tauto)
    | dir n sub =>
      rw [walkEntries]
      simp only [hasSkillMdFile_cons_dir]
      cases hg : strStartsWith n ".git" with
      | true =>
        simp only [hg, Bool.not_true, Bool.false_eq_true, if_false,
          List.nil_append, ih]
        constructor
        · rintro (h | ⟨n', sub', hm, hg', hq⟩)
          · exact Or.inl h
          · exact Or.inr ⟨n', sub', List.mem_cons_of_mem _ hm, hg', hq⟩
        · rintro (h | ⟨n', sub', hm, hg', hq⟩)
          · exact Or.inl h
          · rcases List.mem_cons.mp hm with heq | hm'
            · injection heq with e1 e2
              subst e1; subst e2
              rw [hg] at hg'; cases hg'
            · exact Or.inr ⟨n', sub', hm', hg', hq⟩
      | false =>
        simp only [hg, Bool.not_false, if_true, List.mem_append, ih]
        constructor
        · rintro (hq | h | ⟨n', sub', hm, hg', hq⟩)
          · exact Or.inr ⟨n, sub, List.mem_cons_self _ _, hg, hq⟩
          · exact Or.inl h
          · exact Or.inr ⟨n', sub', List.mem_cons_of_mem _ hm, hg', hq⟩
        · rintro (h | ⟨n', sub', hm, hg', hq⟩)
          · exact Or.inr (Or.inl h)
          · rcases List.mem_cons.mp hm with heq | hm'
            · injection heq with e1 e2
              subst e1; subst e2
              exact Or.inl hq
            · exact Or.inr (Or.inr ⟨n', sub', hm', hg', hq⟩)

lemma mem_findSkillDirectories_of_reaches {q : String} {fs : List Entry}
    (hvfs : isValidSkillDirectory fs = true) :
    ∀ {p : String} {es : List Entry}, Reaches p es q fs →
      q ∈ findSkillDirectories p es := by
  intro p es hr
  induction hr with
  | here p es =>
    rw [findSkillDirectories]
    exact mem_walkEntries.mpr (Or.inl ⟨hasSkillMdFile_of_isValid hvfs, hvfs, rfl⟩)
  | there n hmem hgit h ih =>
    rw [findSkillDirectories]
    exact mem_walkEntries.mpr (Or.inr ⟨n, _, hmem, hgit, ih hvfs⟩)

lemma reaches_of_mem_findSkillDirectories :
    ∀ {p : String} {es : List Entry} {q : String},
      q ∈ findSkillDirectories p es →
      ∃ fs, Reaches p es q fs ∧ isValidSkillDirectory fs = true := by
  suffices H : ∀ (N : Nat) (p : String) (es : List Entry) (q : String),
      sizeOf es < N → q ∈ findSkillDirectories p es →
      ∃ fs, Reaches p es q fs ∧ isValidSkillDirectory fs = true by
    intro p es q
    exact H (sizeOf es + 1) p es q (by omega)
  intro N
  induction N with
  | zero => intro p es q h; omega
  | succ N ihN =>
    intro p es q hlt hq
    rw [findSkillDirectories] at hq
    rcases mem_walkEntries.mp hq with ⟨hf, hv, rfl⟩ | ⟨n, sub, hm, hg, hq'⟩
    · exact ⟨es, Reaches.here _ _, hv⟩
    · have hsub : sizeOf sub < N := by
        have h1 := List.sizeOf_lt_of_mem hm
        simp only [Entry.dir.sizeOf_spec] at h1
        omega
      obtain ⟨fs, hr, hvfs⟩ := ihN (joinPath p n) sub q hsub hq'
      exact ⟨fs, Reaches.there n hm hg hr, hvfs⟩

/-! ## Agents (`constants.ts`, `agents.ts`) -/

/-- `AgentConfig` from `types/index.ts`. -/
structure AgentConfig where
  name : String
  flag : String
  folderName : String
  deriving DecidableEq, Repr

/-- The fixed `AGENTS` list from `constants.ts`
(re-exported as `SUPPORTED_AGENTS`). -/
def AGENTS : List AgentConfig :=
  [⟨"Claude Code", "claude", ".claude"⟩,
   ⟨"Codex", "codex", ".codex"⟩,
   ⟨"Gemini", "gemini", ".gemini"⟩]

/-- `getAgentByFlag` from `agents.ts`. -/
def getAgentByFlag (flag : String) : Option AgentConfig :=
  AGENTS.find? (fun agent => agent.flag == flag)

/-! ## Install destinations and the install engine (`skill-install.ts`) -/

/-- `getSkillInstallPath` from `skill-install.ts`: destination directory for
a skill name and agent.  `home` models `os.homedir()` and `cwd` models
`process.cwd()`. -/
def getSkillInstallPath (skillName flag : String) (isGlobal : Bool)
    (home cwd : String) : Except String String :=
  match getAgentByFlag flag with
  | none => .error ("Unknown agent: " ++ flag)
  | some agent =>
    .ok (joinPath (joinPath (joinPath (if isGlobal then home else cwd)
      agent.folderName) "skills") skillName)

/-- The set of skill directories materialized on disk by `fs.copy`,
as a map from destination path to the copied directory tree. -/
abbrev Store := List (String × List Entry)

/-- `fs.copy(src, dest, { overwrite: true })`: (re)bind `dest`. -/
def storePut (st : Store) (dest : String) (es : List Entry) : Store :=
  (dest, es) :: st.filter (fun kv => kv.1 ≠ dest)

/-- Look up an installed directory. -/
def storeGet (st : Store) (dest : String) : Option (List Entry) :=
  (st.find? (fun kv => kv.1 == dest)).map Prod.snd

/-- `installSkillDirectory` from `skill-install.ts`: read the manifest of
the skill directory at `skillDir` (its entries are `es`), fail when it is
invalid, otherwise copy the directory to the destination named by the
manifest `name` and return that name. -/
def installSkillDirectory (st : Store) (skillDir : String) (es : List Entry)
    (flag : String) (isGlobal : Bool) (home cwd : String) :
    Store × Except String String :=
  match readSkillMetadata es with
  | none =>
    (st, .error ("Invalid skill at \"" ++ skillDir ++
      "\": SKILL.md must have name and description in frontmatter"))
  | some metadata =>
    match getSkillInstallPath metadata.name flag isGlobal home cwd with
    | .error e => (st, .error e)
    | .ok dest => (storePut st dest es, .ok metadata.name)

/-- The `for (const skillDir of skillDirs)` loop shared by
`installFromLocal`, `installFromZip` and `installFromGithub`: install each
discovered directory in order, aborting on the first failure with the
filesystem state reached so far. -/
def installLoop (st : Store) (dirs : List (String × List Entry))
    (flag : String) (isGlobal : Bool) (home cwd : String) :
    Store × Except String (List String) :=
  match dirs with
  | [] => (st, .ok [])
  | (p, es) :: rest =>
    match installSkillDirectory st p es flag isGlobal home cwd with
    | (st', .error e) => (st', .error e)
    | (st', .ok skillName) =>
      match installLoop st' rest flag isGlobal home cwd with
      | (st'', .ok names) => (st'', .ok (skillName :: names))
      | (st'', .error e) => (st'', .error e)

/-- The filesystem state after installing every directory of `dirs`
(the successful run of the loop, used to describe partial progress). -/
def installAll (st : Store) (dirs : List (String × List Entry))
    (flag : String) (isGlobal : Bool) (home cwd : String) : Store :=
  dirs.foldl
    (fun s pe => (installSkillDirectory s pe.1 pe.2 flag isGlobal home cwd).1) st

mutual

/-- `walkEntries`, additionally returning each discovered directory's entry
list next to its path (the source re-reads the directory from disk by path;
on an unchanged tree that read yields exactly these entries). -/
def walkEntriesE (p : String) (here : List Entry) (l : List Entry) :
    List (String × List Entry) :=
  match l with
  | [] => []
  | .file n _ :: rest =>
      (if n == "SKILL.md" && isValidSkillDirectory here then [(p, here)] else []) ++
        walkEntriesE p here rest
  | .dir n sub :: rest =>
      (if !strStartsWith n ".git" then findSkillDirectoriesE (joinPath p n) sub else []) ++
        walkEntriesE p here rest
termination_by sizeOf l
decreasing_by all_goals (simp_wf <;> omega)

/-- `findSkillDirectories`, with entry lists (see `walkEntriesE`). -/
def findSkillDirectoriesE (p : String) (es : List Entry) :
    List (String × List Entry) :=
  walkEntriesE p es es
termination_by sizeOf es + 1
decreasing_by simp_wf

end

/-- The enriched walk discovers exactly the paths of the source's walk. -/
lemma findSkillDirectoriesE_fst :
    ∀ {p : String} {es : List Entry},
      (findSkillDirectoriesE p es).map Prod.fst = findSkillDirectories p es := by
  suffices H : ∀ (N : Nat) (p : String) (here l : List Entry), sizeOf l < N →
      (walkEntriesE p here l).map Prod.fst = walkEntries p here l by
    intro p es
    rw [findSkillDirectoriesE, findSkillDirectories]
    exact H (sizeOf es + 1) p es es (by omega)
  intro N
  induction N with
  | zero => intro p here l h; omega
  | succ N ihN =>
    intro p here l hlt
    match l with
    | [] => rw [walkEntriesE, walkEntries]; rfl
    | .file n c :: rest =>
      rw [walkEntriesE, walkEntries, List.map_append,
        ihN p here rest (by simp at hlt ⊢; omega)]
      congr 1
      split <;> simp
    | .dir n sub :: rest =>
      rw [walkEntriesE, walkEntries, List.map_append,
        ihN p here rest (by simp at hlt ⊢; omega)]
      congr 1
      split
      · rw [findSkillDirectoriesE, findSkillDirectories]
        exact ihN (joinPath p n) sub sub (by simp at hlt ⊢; omega)
      · rfl

/-- `SkillSourceType` from `types/index.ts`. -/
inductive SourceType where
  | shortcut
  | github
  | local
  deriving DecidableEq, Repr

/-- `SkillSource` from `types/index.ts`. -/
structure SkillSource where
  type : SourceType
  location : String
  originalInput : String
  deriving DecidableEq, Repr

/-- `installFromLocal` from `skill-install.ts`: discover skills directly
under the source's resolved location and install each one. -/
def installFromLocal (st : Store) (source : SkillSource)
    (rootEntries : List Entry) (flag : String) (isGlobal : Bool)
    (home cwd : String) : Store × Except String (List String) :=
  let skillDirs := findSkillDirectoriesE source.location rootEntries
  if skillDirs.isEmpty then
    (st, .error ("No skills found in \"" ++ source.location ++
      "\". A skill must contain a SKILL.md file."))
  else
    installLoop st skillDirs flag isGlobal home cwd

/-- `installFromGithub` from `skill-install.ts`.  The degit subprocess is an
external collaborator: `fetched` is either its stderr on failure or the
content it materialized into the temporary directory `tempDir`. -/
def installFromGithub (st : Store) (source : SkillSource) (tempDir : String)
    (fetched : Except String (List Entry)) (flag : String) (isGlobal : Bool)
    (home cwd : String) : Store × Except String (List String) :=
  match fetched with
  | .error stderr =>
    (st, .error ("Failed to download from GitHub: " ++ stderr))
  | .ok entries =>
    let skillDirs := findSkillDirectoriesE tempDir entries
    if skillDirs.isEmpty then
      (st, .error ("No skills found in \"" ++ source.originalInput ++
        "\". A skill must contain a SKILL.md file."))
    else
      installLoop st skillDirs flag isGlobal home cwd

/-! ## Scope resolution (`resolveTargetAgents` in `add.ts`) -/

/-- `CommandFlags` from `types/index.ts` (absent flags default to false,
matching `flags.global ?? false` and falsy lookups). -/
structure CommandFlags where
  global : Bool := false
  claude : Bool := false
  codex : Bool := false
  gemini : Bool := false
  deriving DecidableEq, Repr

/-- The dynamic lookup `flags[agent.flag as keyof CommandFlags]`. -/
def flagValue (flags : CommandFlags) (flag : String) : Bool :=
  if flag = "claude" then flags.claude
  else if flag = "codex" then flags.codex
  else if flag = "gemini" then flags.gemini
  else false

/-- `detectLocalAgents` from `agent-detect.ts`: the supported agents whose
folder is present in the current directory; `localFolderExists` models
`fs.pathExists(path.join(process.cwd(), agent.folderName))`. -/
def detectLocalAgents (localFolderExists : String → Bool) : List AgentConfig :=
  AGENTS.filter (fun agent => localFolderExists agent.folderName)

/-- `resolveTargetAgents` from `add.ts`.  External collaborators appear as
arguments: `firstRun` is `isFirstRun()`, `promptSelection` the result of
`promptAgentSelection()`, `defaultAgents` the saved `getDefaultAgents()`,
and `localFolderExists` the local-folder check of `detectLocalAgents`. -/
def resolveTargetAgents (flags : CommandFlags) (firstRun : Bool)
    (promptSelection : List String) (defaultAgents : List String)
    (localFolderExists : String → Bool) :
    Except String (List String × Bool) :=
  let forceGlobal := flags.global
  let explicitAgents :=
    (AGENTS.filter (fun agent => flagValue flags agent.flag)).map (·.flag)
  let targetsE : Except String (List String) :=
    if !explicitAgents.isEmpty then .ok explicitAgents
    else if firstRun then .ok promptSelection
    else if defaultAgents.isEmpty then
      .error "No default agents configured. Run \"sun config\" to set up your agents."
    else .ok defaultAgents
  match targetsE with
  | .error e => .error e
  | .ok targetAgents =>
    if forceGlobal then .ok (targetAgents, true)
    else
      let localAgentFlags := (detectLocalAgents localFolderExists).map (·.flag)
      let hasLocalFolders := targetAgents.any (fun f => localAgentFlags.contains f)
      .ok (targetAgents, !hasLocalFolders)

/-! ## Source resolution (`skill-source.ts`) -/

/-- `isGithubUrl`: the input contains the literal substring `github.com`. -/
def isGithubUrl (input : String) : Bool :=
  containsSub input.toList "github.com".toList

/-- The scheme test `/^[a-z]+:\/\//i`: when the input starts with one or
more ASCII letters followed by `://`, return what follows the `://`. -/
def schemeSplit (s : List Char) : Option (List Char) :=
  let letters := s.takeWhile (fun c => c.isAlpha)
  if letters.isEmpty then none
  else if "://".toList.isPrefixOf (s.drop letters.length) then
    some (s.drop (letters.length + 3))
  else none

/-- `new URL(urlString).pathname`, modelled for well-formed http-style URLs
whose host is nonempty and whose path segments contain no characters that
the WHATWG parser rewrites (no percent-encoding triggers, no `.`/`..`
segments, no userinfo or port): everything after the host up to a query or
fragment, or `/` when the host is not followed by a path. -/
def urlPathname (urlString : List Char) : List Char :=
  match schemeSplit urlString with
  | none => urlString
  | some rest =>
    let afterHost := rest.dropWhile (fun c => !(c = '/' || c = '?' || c = '#'))
    match afterHost with
    | '/' :: _ => afterHost.takeWhile (fun c => !(c = '?' || c = '#'))
    | _ => "/".toList

/-- The preprocessing of `normalizeGithubUrl` up to `parsed.pathname`:
trim, strip a `git+` prefix, default the scheme to `https`, and take the
URL's pathname. -/
def githubPathname (url : String) : List Char :=
  let location := jsTrim url.toList
  let location :=
    if "git+".toList.isPrefixOf location then location.drop 4 else location
  let urlString :=
    if (schemeSplit location).isSome then location
    else "https://".toList ++ location
  urlPathname urlString

/-- The segment list of `normalizeGithubUrl`: strip leading slashes, split
on `/`, drop empty segments, and shift a leading `github.com`. -/
def githubUrlParts (url : String) : List String :=
  let pathname := (githubPathname url).dropWhile (· = '/')
  let parts := ((splitOnChar '/' pathname).map String.mk).filter (· ≠ "")
  if parts.head? = some "github.com" then parts.drop 1 else parts

/-- `repo.replace(/\.git$/, '')`. -/
def stripDotGit (repo : String) : String :=
  if "tig.".toList.isPrefixOf repo.toList.reverse then
    String.mk (repo.toList.take (repo.toList.length - 4))
  else repo

/-- `normalizeGithubUrl` from `skill-source.ts`: convert a GitHub URL to
degit format `user/repo[/subpath][#branch]`. -/
def normalizeGithubUrl (url : String) : String :=
  let pathname := (githubPathname url).dropWhile (· = '/')
  match githubUrlParts url with
  | user :: repo0 :: restParts =>
    let repo := stripDotGit repo0
    let branched : Option String :=
      match restParts with
      | kind :: afterKind =>
        if kind = "tree" || kind = "blob" || kind = "raw" then
          let branch := (afterKind.head?).getD ""
          let subSegs := afterKind.drop 1
          let subSegs :=
            if kind ≠ "tree" ∧ subSegs ≠ [] then subSegs.dropLast else subSegs
          let subpath := String.intercalate "/" subSegs
          if branch ≠ "" then
            some (if subpath ≠ "" then
                user ++ "/" ++ repo ++ "/" ++ subpath ++ "#" ++ branch
              else user ++ "/" ++ repo ++ "#" ++ branch)
          else none
        else none
      | [] => none
    match branched with
    | some result => result
    | none =>
      let extraPath := String.intercalate "/" restParts
      if extraPath ≠ "" then user ++ "/" ++ repo ++ "/" ++ extraPath
      else user ++ "/" ++ repo
  | _ => String.mk pathname

example :
    normalizeGithubUrl "https://github.com/user/repo/tree/main/skills/x" =
      "user/repo/skills/x#main" := by decide

example : normalizeGithubUrl "github.com/user/repo" = "user/repo" := by decide

example :
    normalizeGithubUrl "https://github.com/o/r/blob/main/dir/file.md" =
      "o/r/dir#main" := by decide

example : normalizeGithubUrl "git+https://github.com/o/r.git" = "o/r" := by
  decide

/-- Node `path.resolve` for an absolute `cwd`: make the input absolute
against `cwd` and normalize `.`/`..`/empty segments. -/
def resolveSegments (acc : List String) : List String → List String
  | [] => acc.reverse
  | seg :: rest =>
    if seg = "" ∨ seg = "." then resolveSegments acc rest
    else if seg = ".." then resolveSegments (acc.drop 1) rest
    else resolveSegments (seg :: acc) rest

/-- Node `path.resolve(input)` with current working directory `cwd`. -/
def pathResolve (cwd input : String) : String :=
  let s := if strStartsWith input "/" then input else cwd ++ "/" ++ input
  "/" ++ String.intercalate "/"
    (resolveSegments [] ((splitOnChar '/' s.toList).map String.mk))

example : pathResolve "/home/user" "./x" = "/home/user/x" := by decide
example : pathResolve "/home/user" "../x" = "/home/x" := by decide
example : pathResolve "/home/user" "/abs/p" = "/abs/p" := by decide
example : pathResolve "/home/user" "tinker" = "/home/user/tinker" := by decide

/-- `isLocalPath` from `skill-source.ts`: a path indicator as a prefix, or
an existing path on disk (`existsAt` models `fs.pathExistsSync`). -/
def isLocalPath (existsAt : String → Bool) (cwd input : String) : Bool :=
  strStartsWith input "./" || strStartsWith input "../" ||
  strStartsWith input "~/" || strStartsWith input "/" ||
  existsAt (pathResolve cwd input)

/-- The external collaborators of `resolveSkillSource`: the registry client
(`isShortcut`/`getShortcutUrl`), the filesystem existence check, and the
process environment. -/
structure ResolveEnv where
  isShortcut : String → Bool
  getShortcutUrl : String → Option String
  existsAt : String → Bool
  home : String
  cwd : String

/-- `resolveSkillSource` from `skill-source.ts`: classify an input string
as a shortcut, GitHub URL, or local path, in that priority order. -/
def resolveSkillSource (env : ResolveEnv) (input : String) :
    Except String SkillSource :=
  if env.isShortcut input then
    match env.getShortcutUrl input with
    | none =>
      .error ("Skill \"" ++ input ++ "\" found in registry but has no degit_path")
    | some degitPath => .ok ⟨.shortcut, degitPath, input⟩
  else if isGithubUrl input then
    .ok ⟨.github, normalizeGithubUrl input, input⟩
  else if isLocalPath env.existsAt env.cwd input then
    let location :=
      if strStartsWith input "~/" then
        env.home ++ "/" ++ String.mk (input.toList.drop 2)
      else input
    .ok ⟨.local, pathResolve env.cwd location, input⟩
  else
    .error ("Skill not found: \"" ++ input ++
      "\". Expected a shortcut name, GitHub URL, or local path.")

/-- `removeSkill` from `skill-install.ts`. -/
def removeSkill (st : Store) (skillName flag : String) (isGlobal : Bool)
    (home cwd : String) : Except String (Store × Bool) :=
  match getSkillInstallPath skillName flag isGlobal home cwd with
  | .error e => .error e
  | .ok dest =>
    match storeGet st dest with
    | some _ => .ok (st.filter (fun kv => kv.1 ≠ dest), true)
    | none => .ok (st, false)

/-! ## Content hashing (`skill-hash.ts`) -/

/-- JS default string comparison (UTF-16 code-unit lexicographic order,
which coincides with code-point order on the inputs considered here),
as a strict order on character lists. -/
def charListLt : List Char → List Char → Bool
  | _, [] => false
  | [], _ :: _ => true
  | a :: as, b :: bs => if a < b then true else if b < a then false else charListLt as bs

/-- The reflexive closure of `charListLt` on strings. -/
def strLe (a b : String) : Bool := !charListLt b.toList a.toList

/-- The depth-first walk of `getAllFiles`, carrying each file's content
next to its full path (the source re-reads each file by path; on an
unchanged tree that read yields exactly this content). -/
def getFiles (p : String) (l : List Entry) : List (String × String) :=
  match l with
  | [] => []
  | .file n c :: rest => (joinPath p n, c) :: getFiles p rest
  | .dir n sub :: rest => getFiles (joinPath p n) sub ++ getFiles p rest
termination_by sizeOf l
decreasing_by all_goals (simp_wf <;> omega)

/-- `files.sort()` of `getAllFiles`: sort by full path. -/
def sortFiles (files : List (String × String)) : List (String × String) :=
  files.insertionSort (fun a b => strLe a.1 b.1 = true)

/-- `path.relative(skillPath, file)` for a file below `skillPath`. -/
def pathRelative (base p : String) : String :=
  String.mk (p.toList.drop (base.toList.length + 1))

/-- `computeContentHash` from `skill-hash.ts`: concatenate, over the files
sorted by path, each file's relative path directly followed by its content,
and truncate the digest of that stream to 12 hex characters.  `digest`
models the SHA-256 hex digest (an external library); an empty directory
hashes the empty string. -/
def computeContentHash (digest : String → String) (skillPath : String)
    (es : List Entry) : String :=
  let files := sortFiles (getFiles skillPath es)
  if files.isEmpty then
    String.mk ((digest "").toList.take 12)
  else
    let stream :=
      files.foldl (fun acc f => acc ++ pathRelative skillPath f.1 ++ f.2) ""
    String.mk ((digest stream).toList.take 12)

/-! ## Installation lookup (`findSkillInstallations` in `skill-info.ts`) -/

/-- `SkillInstallation` from `types/index.ts`. -/
structure SkillInstallation where
  agent : String
  path : String
  isGlobal : Bool
  metadata : SkillMetadata
  contentHash : String
  deriving Repr, DecidableEq

/-- `findSkillInstallations` from `skill-info.ts`: probe the fixed
`{local, global} × agent` candidate paths; `dirAt` models reading a
directory from disk (`none` when the path does not exist or is unreadable
as a directory). -/
def findSkillInstallations (dirAt : String → Option (List Entry))
    (digest : String → String) (home cwd : String) (skillName : String) :
    List SkillInstallation :=
  let locations : List (String × Bool) := [(cwd, false), (home, true)]
  locations.flatMap fun loc =>
    AGENTS.flatMap fun agent =>
      let skillPath :=
        joinPath (joinPath (joinPath loc.1 agent.folderName) "skills") skillName
      match dirAt skillPath with
      | none => []
      | some es =>
        match readSkillMetadata es with
        | none => []
        | some metadata =>
          [⟨agent.flag, skillPath, loc.2, metadata,
            computeContentHash digest skillPath es⟩]

/-! ## Helper lemmas -/

lemma parseFrontmatter_nonempty {c : String} {md : SkillMetadata}
    (h : parseFrontmatter c = some md) :
    md.name ≠ "" ∧ md.description ≠ "" := by
  unfold parseFrontmatter at h
  cases hb : frontmatterBlock c.toList with
  | none => simp only [hb] at h; cases h
  | some block =>
    simp only [hb] at h
    split at h
    · cases h
    · next hcond =>
      injection h with h'
      subst h'
      rw [Bool.or_eq_true, not_or] at hcond
      obtain ⟨hn, hd⟩ := hcond
      constructor
      · intro he
        apply hn
        have hdata : ((splitOnChar '\n' block |>.foldl fmStep {}).name) = [] :=
          String.ext_iff.mp he
        rw [hdata]
        rfl
      · intro he
        apply hd
        have hdata : ((splitOnChar '\n' block |>.foldl fmStep {}).description) = [] :=
          String.ext_iff.mp he
        rw [hdata]
        rfl

lemma readSkillMetadata_nonempty {es : List Entry} {md : SkillMetadata}
    (h : readSkillMetadata es = some md) :
    md.name ≠ "" ∧ md.description ≠ "" := by
  unfold readSkillMetadata at h
  cases hr : readFileInDir es "SKILL.md" with
  | none => rw [hr] at h; cases h
  | some c => rw [hr] at h; exact parseFrontmatter_nonempty h

/-! ## Claim theorems -/

/-- C4: `findSkillDirectories(root)` includes exactly the directories,
reachable from the root without entering a directory whose name begins with
`.git`, that contain a `SKILL.md` whose frontmatter parses with non-empty
`name` and `description` (the source's `isValidSkillDirectory`, whose
parser rejects manifests lacking either field). -/
theorem claim_C4_discovery_exactness (p q : String) (es : List Entry) :
    q ∈ findSkillDirectories p es ↔
      ∃ fs, Reaches p es q fs ∧
        ∃ md, readSkillMetadata fs = some md ∧
          md.name ≠ "" ∧ md.description ≠ "" := by
  constructor
  · intro h
    obtain ⟨fs, hr, hv⟩ := reaches_of_mem_findSkillDirectories h
    rw [isValidSkillDirectory, Option.isSome_iff_exists] at hv
    obtain ⟨md, hmd⟩ := hv
    exact ⟨fs, hr, md, hmd, readSkillMetadata_nonempty hmd⟩
  · rintro ⟨fs, hr, md, hmd, -⟩
    exact mem_findSkillDirectories_of_reaches
      (by rw [isValidSkillDirectory, hmd]; rfl) hr

/-- C1: for a valid skill directory, `installSkillDirectory` copies it to
`{home if global else cwd}/agentFolderName/skills/N` where `N` is the
`name` field parsed from the directory's `SKILL.md` frontmatter; the
destination is independent of the source directory's on-disk path. -/
theorem claim_C1_install_destination
    (st : Store) (skillDir : String) (es : List Entry) (flag : String)
    (isGlobal : Bool) (home cwd : String) (agent : AgentConfig)
    (md : SkillMetadata)
    (hagent : getAgentByFlag flag = some agent)
    (hmd : readSkillMetadata es = some md) :
    installSkillDirectory st skillDir es flag isGlobal home cwd =
      (storePut st (joinPath (joinPath (joinPath
        (if isGlobal then home else cwd) agent.folderName) "skills") md.name) es,
       .ok md.name) := by
  unfold installSkillDirectory getSkillInstallPath
  rw [hmd, hagent]

/-- Witness for C1: a source folder named `folder-on-disk` whose manifest
names the skill `widget` installs to `.claude/skills/widget`. -/
theorem claim_C1_install_destination_witness :
    installSkillDirectory [] "/src/folder-on-disk"
      [Entry.file "SKILL.md" "---\nname: widget\ndescription: d\n---"]
      "claude" false "/home/u" "/proj" =
      (storePut [] "/proj/.claude/skills/widget"
        [Entry.file "SKILL.md" "---\nname: widget\ndescription: d\n---"],
       .ok "widget") :=
  (claim_C1_install_destination [] "/src/folder-on-disk"
      [Entry.file "SKILL.md" "---\nname: widget\ndescription: d\n---"]
      "claude" false "/home/u" "/proj"
      ⟨"Claude Code", "claude", ".claude"⟩
      { name := "widget", description := "d" }
      (by decide) (by decide)).trans (by rfl)

/-- C2: the explicit global flag forces global scope; otherwise the scope
is local exactly when at least one selected target agent has a
locally-present folder, and falls back to global when none does. -/
theorem claim_C2_scope_resolution
    (flags : CommandFlags) (firstRun : Bool)
    (promptSelection defaultAgents : List String)
    (localFolderExists : String → Bool) (ags : List String) (g : Bool)
    (h : resolveTargetAgents flags firstRun promptSelection defaultAgents
      localFolderExists = .ok (ags, g)) :
    (flags.global = true → g = true) ∧
    (flags.global = false →
      (g = false ↔
        ags.any (fun f =>
          ((detectLocalAgents localFolderExists).map (·.flag)).contains f) = true)) := by
  simp only [resolveTargetAgents] at h
  split at h
  · cases h
  · next targetAgents heq =>
    split at h
    · next hfg =>
      injection h with h'
      injection h' with h1 h2
      subst h1; subst h2
      exact ⟨fun _ => rfl, fun hfalse => absurd hfg (by simp [hfalse])⟩
    · next hfg =>
      injection h with h'
      injection h' with h1 h2
      subst h1; subst h2
      refine ⟨fun htrue => absurd htrue (by simpa using hfg), fun _ => ?_⟩
      cases hany : targetAgents.any (fun f =>
          ((detectLocalAgents localFolderExists).map (·.flag)).contains f) <;>
        simp [hany]

/-- Witness for C2: with `--claude` passed, no global flag, and a local
`.claude` folder present, the resolved scope is local. -/
theorem claim_C2_scope_resolution_witness :
    (({ claude := true } : CommandFlags).global = true → (false : Bool) = true) ∧
    (({ claude := true } : CommandFlags).global = false →
      ((false : Bool) = false ↔
        (["claude"].any (fun f =>
          ((detectLocalAgents (fun s => s == ".claude")).map (·.flag)).contains f)) = true)) :=
  claim_C2_scope_resolution { claude := true } false [] []
    (fun s => s == ".claude") ["claude"] false (by rfl)

/-- C5, evaluated at the failing input: two sibling files named `ab` and
`aba`, both with content `a`; renaming `ab` to `ba` while keeping all
contents fixed leaves `computeContentHash` unchanged for every digest,
because the stream fed to the digest concatenates each relative path
directly with its content (no separator) and both trees produce the stream
`abaabaa`.  This contradicts the claim (and the source's own comment that
including the relative path makes moving files change the hash). -/
theorem claim_C5_rename_hash_collision (digest : String → String) :
    computeContentHash digest "/tmp/s"
        [Entry.file "ab" "a", Entry.file "aba" "a"] =
      computeContentHash digest "/tmp/s"
        [Entry.file "ba" "a", Entry.file "aba" "a"] := by
  have h1 : getFiles "/tmp/s" [Entry.file "ab" "a", Entry.file "aba" "a"] =
      [("/tmp/s/ab", "a"), ("/tmp/s/aba", "a")] := by
    simp only [getFiles]
    decide
  have h2 : getFiles "/tmp/s" [Entry.file "ba" "a", Entry.file "aba" "a"] =
      [("/tmp/s/ba", "a"), ("/tmp/s/aba", "a")] := by
    simp only [getFiles]
    decide
  rw [computeContentHash, computeContentHash, h1, h2]
  have hs1 : sortFiles [("/tmp/s/ab", "a"), ("/tmp/s/aba", "a")] =
      [("/tmp/s/ab", "a"), ("/tmp/s/aba", "a")] := by decide
  have hs2 : sortFiles [("/tmp/s/ba", "a"), ("/tmp/s/aba", "a")] =
      [("/tmp/s/aba", "a"), ("/tmp/s/ba", "a")] := by decide
  rw [hs1, hs2]
  have hf1 : List.foldl
      (fun acc f => acc ++ pathRelative "/tmp/s" f.1 ++ f.2) ""
      [("/tmp/s/ab", "a"), ("/tmp/s/aba", "a")] = "abaabaa" := by decide
  have hf2 : List.foldl
      (fun acc f => acc ++ pathRelative "/tmp/s" f.1 ++ f.2) ""
      [("/tmp/s/aba", "a"), ("/tmp/s/ba", "a")] = "abaabaa" := by decide
  simp only [List.isEmpty_cons, hf1, hf2]

/-- C9: the install loop is not atomic.  If every directory before `(p, es)`
has a valid manifest but `es`'s manifest is invalid at copy time, the whole
call returns an error (no names), while the filesystem state is exactly the
one with the earlier directories already installed — no rollback occurs. -/
theorem claim_C9_no_rollback
    (st : Store) (pre : List (String × List Entry)) (p : String)
    (es : List Entry) (post : List (String × List Entry)) (flag : String)
    (isGlobal : Bool) (home cwd : String) (agent : AgentConfig)
    (hagent : getAgentByFlag flag = some agent)
    (hpre : ∀ pe ∈ pre, (readSkillMetadata pe.2).isSome = true)
    (hbad : readSkillMetadata es = none) :
    installLoop st (pre ++ (p, es) :: post) flag isGlobal home cwd =
      (installAll st pre flag isGlobal home cwd,
       .error ("Invalid skill at \"" ++ p ++
         "\": SKILL.md must have name and description in frontmatter")) := by
  induction pre generalizing st with
  | nil =>
    rw [List.nil_append, installLoop]
    simp only [installSkillDirectory, hbad, installAll, List.foldl_nil]
  | cons qe pre' ih =>
    obtain ⟨q, fs⟩ := qe
    have hq := hpre (q, fs) (List.mem_cons_self _ _)
    rw [Option.isSome_iff_exists] at hq
    obtain ⟨md, hmd⟩ := hq
    have hstep : installSkillDirectory st q fs flag isGlobal home cwd =
        (storePut st (joinPath (joinPath (joinPath
          (if isGlobal then home else cwd) agent.folderName) "skills") md.name) fs,
         .ok md.name) := by
      unfold installSkillDirectory getSkillInstallPath
      rw [hmd, hagent]
    rw [List.cons_append, installLoop, hstep]
    dsimp only
    rw [ih _ (fun pe hpe => hpre pe (List.mem_cons_of_mem _ hpe))]
    simp only [installAll, List.foldl_cons, hstep]

/-- Witness for C9: of two discovered directories, the first (valid,
named `a`) is installed before the second (invalid) aborts the call; the
copy of `a` survives in the final state. -/
theorem claim_C9_no_rollback_witness :
    installLoop []
      [("/s/a", [Entry.file "SKILL.md" "---\nname: a\ndescription: d\n---"]),
       ("/s/b", [Entry.file "SKILL.md" "no frontmatter"])]
      "claude" false "/h" "/w" =
      ([("/w/.claude/skills/a",
         [Entry.file "SKILL.md" "---\nname: a\ndescription: d\n---"])],
       .error "Invalid skill at \"/s/b\": SKILL.md must have name and description in frontmatter") :=
  (claim_C9_no_rollback []
    [("/s/a", [Entry.file "SKILL.md" "---\nname: a\ndescription: d\n---"])]
    "/s/b" [Entry.file "SKILL.md" "no frontmatter"] [] "claude" false "/h" "/w"
    ⟨"Claude Code", "claude", ".claude"⟩ (by decide)
    (by decide) (by decide)).trans (by rfl)

/-- C8: an input that is not a registry shortcut and does not contain
`github.com` resolves as a local source exactly when it starts with a
path indicator or names an existing path on disk; the not-found error is
thrown only when neither holds. -/
theorem claim_C8_local_classification
    (env : ResolveEnv) (input : String)
    (hshort : env.isShortcut input = false)
    (hgh : isGithubUrl input = false) :
    (isLocalPath env.existsAt env.cwd input = true →
      resolveSkillSource env input = .ok ⟨.local,
        pathResolve env.cwd
          (if strStartsWith input "~/" then
            env.home ++ "/" ++ String.mk (input.toList.drop 2)
          else input), input⟩) ∧
    (isLocalPath env.existsAt env.cwd input = false →
      resolveSkillSource env input = .error ("Skill not found: \"" ++ input ++
        "\". Expected a shortcut name, GitHub URL, or local path.")) := by
  unfold resolveSkillSource
  simp only [hshort, hgh, Bool.false_eq_true, if_false]
  constructor
  · intro h
    simp [h]
  · intro h
    simp [h]

/-- Witness for C8: `tinker`, absent from the registry but matching an
existing path on disk, classifies as local. -/
theorem claim_C8_local_classification_witness :
    resolveSkillSource
      ⟨fun _ => false, fun _ => none, fun s => s == "/w/tinker", "/home/u", "/w"⟩
      "tinker" = .ok ⟨.local, "/w/tinker", "tinker"⟩ :=
  ((claim_C8_local_classification
    ⟨fun _ => false, fun _ => none, fun s => s == "/w/tinker", "/home/u", "/w"⟩
    "tinker" (by rfl) (by decide)).1 (by decide)).trans (by rfl)

lemma agents_flag_inj :
    ∀ a ∈ AGENTS, ∀ b ∈ AGENTS, a.flag = b.flag → a = b := by decide

lemma mem_findSkillInstallations
    {dirAt : String → Option (List Entry)} {digest : String → String}
    {home cwd skillName : String} {inst : SkillInstallation} :
    inst ∈ findSkillInstallations dirAt digest home cwd skillName ↔
      ∃ (g : Bool), ∃ agent ∈ AGENTS, ∃ es metadata,
        dirAt (joinPath (joinPath (joinPath (if g then home else cwd)
          agent.folderName) "skills") skillName) = some es ∧
        readSkillMetadata es = some metadata ∧
        inst = ⟨agent.flag,
          joinPath (joinPath (joinPath (if g then home else cwd)
            agent.folderName) "skills") skillName, g, metadata,
          computeContentHash digest
            (joinPath (joinPath (joinPath (if g then home else cwd)
              agent.folderName) "skills") skillName) es⟩ := by
  unfold findSkillInstallations
  simp only [List.flatMap_cons, List.flatMap_nil, List.append_nil,
    List.mem_append, List.mem_flatMap]
  constructor
  · rintro (⟨agent, hag, hmem⟩ | ⟨agent, hag, hmem⟩)
    · refine ⟨false, agent, hag, ?_⟩
      revert hmem
      cases hdir : dirAt (joinPath (joinPath (joinPath cwd agent.folderName)
          "skills") skillName) with
      | none => intro hmem; simp [hdir] at hmem
      | some es =>
        intro hmem
        cases hmd : readSkillMetadata es with
        | none => simp [hdir, hmd] at hmem
        | some metadata =>
          simp only [hdir, hmd, List.mem_singleton] at hmem
          exact ⟨es, metadata, hdir, hmd, hmem⟩
    · refine ⟨true, agent, hag, ?_⟩
      revert hmem
      cases hdir : dirAt (joinPath (joinPath (joinPath home agent.folderName)
          "skills") skillName) with
      | none => intro hmem; simp [hdir] at hmem
      | some es =>
        intro hmem
        cases hmd : readSkillMetadata es with
        | none => simp [hdir, hmd] at hmem
        | some metadata =>
          simp only [hdir, hmd, List.mem_singleton] at hmem
          exact ⟨es, metadata, hdir, hmd, hmem⟩
  · rintro ⟨g, agent, hag, es, metadata, hdir, hmd, rfl⟩
    cases g with
    | false =>
      refine Or.inl ⟨agent, hag, ?_⟩
      have hdir' : dirAt (joinPath (joinPath (joinPath cwd agent.folderName)
          "skills") skillName) = some es := by simpa using hdir
      simp [hdir', hmd]
    | true =>
      refine Or.inr ⟨agent, hag, ?_⟩
      have hdir' : dirAt (joinPath (joinPath (joinPath home agent.folderName)
          "skills") skillName) = some es := by simpa using hdir
      simp [hdir', hmd]

/-- C10: every record of `findSkillInstallations` carries parsed metadata
with non-empty `name` and `description` and a path of the fixed form
`{base}/{agentFolder}/skills/{skillName}` for one of the local/global ×
agent combinations; a candidate path that exists but whose `SKILL.md` fails
to parse contributes no entry. -/
theorem claim_C10_installations_sound
    (dirAt : String → Option (List Entry)) (digest : String → String)
    (home cwd skillName : String) :
    (∀ inst ∈ findSkillInstallations dirAt digest home cwd skillName,
      inst.metadata.name ≠ "" ∧ inst.metadata.description ≠ "" ∧
      ∃ agent ∈ AGENTS, inst.agent = agent.flag ∧
        inst.path = joinPath (joinPath (joinPath
          (if inst.isGlobal then home else cwd) agent.folderName) "skills")
          skillName) ∧
    (∀ (g : Bool), ∀ agent ∈ AGENTS, ∀ es,
      dirAt (joinPath (joinPath (joinPath (if g then home else cwd)
        agent.folderName) "skills") skillName) = some es →
      readSkillMetadata es = none →
      ∀ inst ∈ findSkillInstallations dirAt digest home cwd skillName,
        ¬(inst.agent = agent.flag ∧ inst.isGlobal = g)) := by
  constructor
  · intro inst hmem
    obtain ⟨g, agent, hag, es, metadata, hdir, hmd, rfl⟩ :=
      mem_findSkillInstallations.mp hmem
    obtain ⟨hn, hd⟩ := readSkillMetadata_nonempty hmd
    exact ⟨hn, hd, agent, hag, rfl, rfl⟩
  · intro g agent hag es hdir hnone inst hmem ⟨hflag, hglob⟩
    obtain ⟨g', agent', hag', es', metadata', hdir', hmd', rfl⟩ :=
      mem_findSkillInstallations.mp hmem
    have hga : agent' = agent := agents_flag_inj agent' hag' agent hag hflag
    subst hga
    have hgg : g' = g := hglob
    subst hgg
    rw [hdir] at hdir'
    injection hdir' with he
    subst he
    rw [hnone] at hmd'
    cases hmd'

/-- Witness for C10: a single local Claude installation of skill `x` is
reported with its metadata, while an existing global candidate whose
manifest fails to parse is silently omitted. -/
theorem claim_C10_installations_sound_witness :
    (∀ inst ∈ findSkillInstallations
        (fun p =>
          if p = "/w/.claude/skills/x" then
            some [Entry.file "SKILL.md" "---\nname: x\ndescription: d\n---"]
          else if p = "/h/.claude/skills/x" then
            some [Entry.file "SKILL.md" "broken"]
          else none)
        (fun _ => "deadbeef") "/h" "/w" "x",
      inst.metadata.name ≠ "" ∧ inst.metadata.description ≠ "" ∧
      ∃ agent ∈ AGENTS, inst.agent = agent.flag ∧
        inst.path = joinPath (joinPath (joinPath
          (if inst.isGlobal then "/h" else "/w") agent.folderName) "skills")
          "x") ∧
    (∀ inst ∈ findSkillInstallations
        (fun p =>
          if p = "/w/.claude/skills/x" then
            some [Entry.file "SKILL.md" "---\nname: x\ndescription: d\n---"]
          else if p = "/h/.claude/skills/x" then
            some [Entry.file "SKILL.md" "broken"]
          else none)
        (fun _ => "deadbeef") "/h" "/w" "x",
      ¬(inst.agent = "claude" ∧ inst.isGlobal = true)) := by
  have h := claim_C10_installations_sound
    (fun p =>
      if p = "/w/.claude/skills/x" then
        some [Entry.file "SKILL.md" "---\nname: x\ndescription: d\n---"]
      else if p = "/h/.claude/skills/x" then
        some [Entry.file "SKILL.md" "broken"]
      else none)
    (fun _ => "deadbeef") "/h" "/w" "x"
  refine ⟨h.1, ?_⟩
  have h2 := h.2 true ⟨"Claude Code", "claude", ".claude"⟩ (by decide)
    [Entry.file "SKILL.md" "broken"] (by rfl) (by decide)
  exact h2

lemma containsSub_iff_within {l pat : List Char} :
    containsSub l pat = true ↔ pat <:+: l := by
  induction l with
  | nil =>
    simp only [containsSub, List.isEmpty_iff, List.infix_nil]
  | cons c cs ih =>
    rw [containsSub, Bool.or_eq_true, List.isPrefixOf_iff_prefix, ih,
      List.infix_cons_iff]

/-- C7 counterexample: installing `./x` (which resolves to the local source
location `/home/user/x`) from a tree with no valid skills fails with a
message naming the resolved absolute location, which does not contain the
original user input `./x`. -/
theorem claim_C7_counterexample :
    resolveSkillSource
        ⟨fun _ => false, fun _ => none, fun _ => false, "/home/user", "/home/user"⟩
        "./x" = .ok ⟨.local, "/home/user/x", "./x"⟩ ∧
    installFromLocal [] ⟨.local, "/home/user/x", "./x"⟩ [] "claude" false
        "/home/user" "/home/user" =
      ([], .error "No skills found in \"/home/user/x\". A skill must contain a SKILL.md file.") ∧
    containsSub
      "No skills found in \"/home/user/x\". A skill must contain a SKILL.md file.".toList
      "./x".toList = false := by
  refine ⟨by rfl, ?_, by decide⟩
  simp [installFromLocal, findSkillDirectoriesE, walkEntriesE]

/-- C7 amended: when discovery yields zero skill directories, the local
strategy fails with a message containing the resolved source location,
while the GitHub strategy (used for remote and shortcut sources) fails with
a message containing the original user input. -/
theorem claim_C7_amended
    (st : Store) (source : SkillSource) (rootEntries fetched : List Entry)
    (tempDir flag : String) (isGlobal : Bool) (home cwd : String) :
    (findSkillDirectoriesE source.location rootEntries = [] →
      ∃ msg, installFromLocal st source rootEntries flag isGlobal home cwd =
          (st, .error msg) ∧
        containsSub msg.toList source.location.toList = true) ∧
    (findSkillDirectoriesE tempDir fetched = [] →
      ∃ msg, installFromGithub st source tempDir (.ok fetched) flag isGlobal
          home cwd = (st, .error msg) ∧
        containsSub msg.toList source.originalInput.toList = true) := by
  constructor
  · intro h
    refine ⟨"No skills found in \"" ++ source.location ++
      "\". A skill must contain a SKILL.md file.", ?_, ?_⟩
    · simp [installFromLocal, h]
    · rw [containsSub_iff_within]
      show source.location.data <:+:
        ("No skills found in \"" ++ source.location ++
          "\". A skill must contain a SKILL.md file.").data
      rw [String.data_append, String.data_append]
      exact List.infix_append _ _ _
  · intro h
    refine ⟨"No skills found in \"" ++ source.originalInput ++
      "\". A skill must contain a SKILL.md file.", ?_, ?_⟩
    · simp [installFromGithub, h]
    · rw [containsSub_iff_within]
      show source.originalInput.data <:+:
        ("No skills found in \"" ++ source.originalInput ++
          "\". A skill must contain a SKILL.md file.").data
      rw [String.data_append, String.data_append]
      exact List.infix_append _ _ _

/-- Witness for C7 amended: a local source at `/abs/x` and a GitHub source
fetched from `o/r#main` both fail on an empty tree with the respective
messages. -/
theorem claim_C7_amended_witness :
    (∃ msg, installFromLocal [] ⟨.local, "/abs/x", "./x"⟩ [] "claude" false
        "/h" "/w" = ([], .error msg) ∧
      containsSub msg.toList "/abs/x".toList = true) ∧
    (∃ msg, installFromGithub [] ⟨.github, "o/r#main", "github.com/o/r"⟩
        "/tmp/t" (.ok []) "claude" false "/h" "/w" = ([], .error msg) ∧
      containsSub msg.toList "github.com/o/r".toList = true) := by
  have h := claim_C7_amended [] ⟨.local, "/abs/x", "./x"⟩ [] [] "/tmp/t"
    "claude" false "/h" "/w"
  have h' := claim_C7_amended [] ⟨.github, "o/r#main", "github.com/o/r"⟩ [] []
    "/tmp/t" "claude" false "/h" "/w"
  exact ⟨h.1 (by simp [findSkillDirectoriesE, walkEntriesE]),
    h'.2 (by simp [findSkillDirectoriesE, walkEntriesE])⟩

/-- C3 counterexample: in
`https://github.com/owner/repo/deep/tree/main/sub` the path contains a
`tree` segment, yet `normalizeGithubUrl` produces no branch suffix at all —
the tree/blob/raw handling only applies when that segment immediately
follows `owner/repo`. -/
theorem claim_C3_counterexample :
    githubUrlParts "https://github.com/owner/repo/deep/tree/main/sub" =
      ["owner", "repo", "deep", "tree", "main", "sub"] ∧
    "tree" ∈ githubUrlParts "https://github.com/owner/repo/deep/tree/main/sub" ∧
    normalizeGithubUrl "https://github.com/owner/repo/deep/tree/main/sub" =
      "owner/repo/deep/tree/main/sub" ∧
    containsSub
      (normalizeGithubUrl "https://github.com/owner/repo/deep/tree/main/sub").toList
      "#".toList = false := by decide

/-- C3 amended: normalization strips the scheme and the leading host
segment; when the segment immediately following `owner/repo` is `tree`,
`blob` or `raw` and a branch segment follows, that segment becomes the
`#branch` suffix and the remaining segments the subpath, with `blob`/`raw`
dropping the final filename segment; in particular
`https://host/owner/repo/tree/main/sub/dir` normalizes to
`owner/repo/sub/dir#main` and `host/owner/repo` to `owner/repo`. -/
theorem claim_C3_amended :
    (∀ (url : String) (user repo kind branch : String) (segs : List String),
      githubUrlParts url = user :: repo :: kind :: branch :: segs →
      (kind = "tree" ∨ kind = "blob" ∨ kind = "raw") →
      stripDotGit repo = repo →
      branch ≠ "" →
      normalizeGithubUrl url =
        (let subSegs := if kind ≠ "tree" ∧ segs ≠ [] then segs.dropLast else segs
         let subpath := String.intercalate "/" subSegs
         if subpath ≠ "" then
           user ++ "/" ++ repo ++ "/" ++ subpath ++ "#" ++ branch
         else user ++ "/" ++ repo ++ "#" ++ branch)) ∧
    normalizeGithubUrl "https://host/owner/repo/tree/main/sub/dir" =
      "owner/repo/sub/dir#main" ∧
    normalizeGithubUrl "host/owner/repo" = "owner/repo" ∧
    normalizeGithubUrl "https://github.com/o/r/blob/main/dir/file.md" =
      "o/r/dir#main" := by
  refine ⟨?_, by decide, by decide, by decide⟩
  intro url user repo kind branch segs hparts hkind hrepo hbranch
  rcases hkind with rfl | rfl | rfl <;>
    simp [normalizeGithubUrl, hparts, hrepo, hbranch]

/-- Witness for C3 amended: a `blob` URL with branch `main` and a filename
to drop. -/
theorem claim_C3_amended_witness :
    normalizeGithubUrl "https://github.com/alice/proj/blob/main/d/f.md" =
      "alice/proj/d#main" :=
  (claim_C3_amended.1 "https://github.com/alice/proj/blob/main/d/f.md"
    "alice" "proj" "blob" "main" ["d", "f.md"] (by decide)
    (Or.inr (Or.inl rfl)) (by decide) (by decide)).trans (by rfl)

lemma takeUntilSub_some_containsSub {pat : List Char} :
    ∀ {l r : List Char}, takeUntilSub pat l = some r → containsSub l pat = true := by
  intro l
  induction l with
  | nil =>
    intro r h
    rw [takeUntilSub] at h
    rw [containsSub]
    split at h
    · next hp => simpa [List.isEmpty_iff] using hp
    · cases h
  | cons c cs ih =>
    intro r h
    rw [takeUntilSub] at h
    rw [containsSub, Bool.or_eq_true]
    split at h
    · next hp => exact Or.inl hp
    · next hp =>
      obtain ⟨r', hr', -⟩ := Option.map_eq_some'.mp h
      exact Or.inr (ih hr')

/-- C6 counterexample: `---\nname: a\ndescription: b\n---x` parses
successfully although no second line consisting solely of `---` exists —
the closing delimiter match only requires a later line *beginning* with
`---`. -/
theorem claim_C6_counterexample :
    (parseFrontmatter "---\nname: a\ndescription: b\n---x").isSome = true ∧
    (((splitOnChar '\n' "---\nname: a\ndescription: b\n---x".toList).map
      String.mk).count "---") = 1 := by decide

/-- C6 amended: parsing succeeds only on manifests that begin with a line
consisting solely of `---` and in which a later line beginning with `---`
closes the header block; and whenever parsing does not find both a
non-empty `name` and a non-empty `description` it returns `none` (no
metadata), never an error. -/
theorem claim_C6_amended (s : String) :
    ((parseFrontmatter s).isSome = true →
      "---\n".toList.isPrefixOf s.toList = true ∧
      containsSub (s.toList.drop 4) "\n---".toList = true) ∧
    (∀ md, parseFrontmatter s = some md →
      md.name ≠ "" ∧ md.description ≠ "") := by
  constructor
  · intro h
    unfold parseFrontmatter at h
    cases hb : frontmatterBlock s.toList with
    | none => simp only [hb] at h; simp at h
    | some block =>
      unfold frontmatterBlock at hb
      split at hb
      · next hstart => exact ⟨hstart, takeUntilSub_some_containsSub hb⟩
      · cases hb
  · intro md h
    exact parseFrontmatter_nonempty h

/-- Witness for C6 amended: a well-formed manifest whose parse succeeds,
with the delimiters present and non-empty required fields. -/
theorem claim_C6_amended_witness :
    ("---\n".toList.isPrefixOf "---\nname: a\ndescription: b\n---\n".toList = true ∧
      containsSub ("---\nname: a\ndescription: b\n---\n".toList.drop 4)
        "\n---".toList = true) ∧
    (({ name := "a", description := "b" } : SkillMetadata).name ≠ "" ∧
      ({ name := "a", description := "b" } : SkillMetadata).description ≠ "") :=
  ⟨(claim_C6_amended "---\nname: a\ndescription: b\n---\n").1 (by decide),
   (claim_C6_amended "---\nname: a\ndescription: b\n---\n").2
     { name := "a", description := "b" } (by decide)⟩

end Sun
